import Mathlib

/-!
Shallow embedding of `src/objective.py` (class `ObjectiveTest`), a
fill-in-the-blank test generator, together with proofs of its stated
properties.

Modelling conventions:
* Python strings are `List Char`; ASCII case folding models `re.IGNORECASE`.
* The external linguistic annotator (nltk) is a black box: its per-sentence
  outputs (POS tags, word-token count, chunked noun phrases) are parameters.
* The external lexical hierarchy (WordNet) is a black box: a `Hierarchy`
  record of functions, with senses identified by numbers.
* Python exceptions are `Except Err`; `IndexError` from `xs[0]` on an empty
  list and `ValueError` from `np.random.randint(0, 0)` are modelled explicitly.
* `np.random.randint(0, n)` is modelled by an oracle `draws : Nat → Nat`
  reduced mod `n`; the `while` loop is indexed by fuel, with `diverge`
  marking fuel exhaustion (the limit over all fuels models non-termination).
-/

/-- Convert a string literal to the `List Char` representation used throughout. -/
def lc (s : String) : List Char := s.data

/-- The apostrophe character (Python `'\''` in `phrase[0] == '\''`). -/
def apos : Char := Char.ofNat 39

/-- The underscore character used in blank markers. -/
def underscore : Char := Char.ofNat 95

/-- Whitespace recognised by Python `str.split()` / `str.strip()` (ASCII part). -/
def pyIsSpace (c : Char) : Bool :=
  c = ' ' || c = Char.ofNat 9 || c = Char.ofNat 10 || c = Char.ofNat 13 ||
  c = Char.ofNat 11 || c = Char.ofNat 12

/-- Python `str.strip()`: remove leading and trailing whitespace. -/
def pyStrip (l : List Char) : List Char :=
  ((l.dropWhile pyIsSpace).reverse.dropWhile pyIsSpace).reverse

/-- Helper for `pySplit`: accumulate the current word (reversed) while scanning. -/
def pySplitAux : List Char → List Char → List (List Char)
  | [], acc => if acc.isEmpty then [] else [acc.reverse]
  | c :: rest, acc =>
    if pyIsSpace c then
      if acc.isEmpty then pySplitAux rest [] else acc.reverse :: pySplitAux rest []
    else pySplitAux rest (c :: acc)

/-- Python `str.split()` with no argument: split on whitespace runs, no empties. -/
def pySplit (l : List Char) : List (List Char) := pySplitAux l []

/-- Python `" ".join(words)`. -/
def joinSpace (ws : List (List Char)) : List Char := List.intercalate [' '] ws

/-- Python list slice `xs[-2:]`. -/
def lastTwo (l : List (List Char)) : List (List Char) := l.drop (l.length - 2)

/-- ASCII lowercase of every character, modelling case-insensitive comparison. -/
def lowerList (l : List Char) : List Char := l.map Char.toLower

/-- Case-insensitive "is prefix" test. -/
def isCIPrefixOf (pat s : List Char) : Bool :=
  (lowerList pat).isPrefixOf (lowerList s)

/-- Case-insensitive occurrence test, modelling whether
`re.compile(re.escape(pat), re.IGNORECASE)` matches anywhere in `s`. -/
def ciOccurs (pat : List Char) : List Char → Bool
  | [] => isCIPrefixOf pat []
  | c :: rest => isCIPrefixOf pat (c :: rest) || ciOccurs pat rest

/-- Python `re.sub(escaped pat, repl, s, count=1)` with `re.IGNORECASE`:
replace the first (leftmost) case-insensitive occurrence of the literal
`pat` in `s` by `repl`; `s` unchanged when there is no occurrence. -/
def replaceFirstCI (pat repl : List Char) : List Char → List Char
  | [] => if isCIPrefixOf pat [] then repl else []
  | c :: rest =>
    if isCIPrefixOf pat (c :: rest) then repl ++ (c :: rest).drop pat.length
    else c :: replaceFirstCI pat repl rest

/-- Case-sensitive occurrence test (used to state the round-trip property). -/
def csOccurs (pat : List Char) : List Char → Bool
  | [] => pat.isPrefixOf []
  | c :: rest => pat.isPrefixOf (c :: rest) || csOccurs pat rest

/-- Case-sensitive first-occurrence replacement (used to state the round-trip
property of substituting the answer back for the blank run). -/
def replaceFirst (pat repl : List Char) : List Char → List Char
  | [] => if pat.isPrefixOf ([] : List Char) then repl else []
  | c :: rest =>
    if pat.isPrefixOf (c :: rest) then repl ++ (c :: rest).drop pat.length
    else c :: replaceFirst pat repl rest

/-- The blank-marker literal `"__________"` (ten underscores). -/
def tenBlanks : List Char := List.replicate 10 underscore

/-- Python `("__________" * n).strip()`. -/
def blanksFor (n : Nat) : List Char :=
  pyStrip (List.flatten (List.replicate n tenBlanks))

/-- The adverb POS tag literal `"RB"`. -/
def rbTag : List Char := lc "RB"

/-- Python exceptions relevant to this module. -/
inductive Err where
  | indexError
  | valueError
deriving DecidableEq

/-- The dictionary built by `identify_potential_questions`
(keys `"Answer"`, `"Key"`, `"Similar"`, `"Question"`). -/
structure QuestionRecord where
  answer : List Char
  key : Nat
  similar : List (List Char)
  question : List Char
deriving DecidableEq

/-- Default record used to express total list indexing (indices are always
in bounds where this is used). -/
def defaultRecord : QuestionRecord := ⟨[], 0, [], []⟩

/-- Black-box model of the WordNet lexical hierarchy: senses are numbers;
`synsets w` is `wn.synsets(w, pos="n")`, `lemmas s` is the list of lemma
names of sense `s`. -/
structure Hierarchy where
  synsets : List Char → List Nat
  hypernyms : Nat → List Nat
  hyponyms : Nat → List Nat
  lemmas : Nat → List (List Char)

/-- Loop body of `answer_options`' hyponym scan: append each hyponym's first
lemma name (underscores replaced by spaces) when it differs from `word`,
stopping at 8 collected; `lemmas()[0]` on an empty lemma list raises. -/
def collect_similar (word : List Char) (hi : Hierarchy) :
    List Nat → List (List Char) → Except Err (List (List Char))
  | [], acc => .ok acc
  | hy :: rest, acc =>
    match hi.lemmas hy with
    | [] => .error .indexError
    | l0 :: _ =>
      let similar_word := l0.map (fun c => if c = underscore then ' ' else c)
      let acc2 := if similar_word = word then acc else acc ++ [similar_word]
      if acc2.length = 8 then .ok acc2 else collect_similar word hi rest acc2

/-- `ObjectiveTest.answer_options`: distractor generation for a single word. -/
def answer_options (hi : Hierarchy) (word : List Char) :
    Except Err (List (List Char)) :=
  match hi.synsets word with
  | [] => .ok []
  | synset :: _ =>
    match hi.hypernyms synset with
    | [] => .error .indexError
    | hypernym :: _ => collect_similar word hi (hi.hyponyms hypernym) []

/-- The inner `for phrase in noun_phrases` loop of
`identify_potential_questions`: on the first phrase starting with an
apostrophe the scan aborts with no words collected; on the first phrase
containing `word` as a substring it yields the last two words of that
phrase; `phrase[0]` on an empty phrase raises. -/
def scan_phrases (word : List Char) : List (List Char) → Except Err (List (List Char))
  | [] => .ok []
  | p :: rest =>
    match p with
    | [] => .error .indexError
    | c :: _ =>
      if c = apos then .ok []
      else if csOccurs word p then .ok (lastTwo (pySplit p))
      else scan_phrases word rest

/-- The `replace_nouns` computation of `identify_potential_questions`: the
outer `for word, _ in tags` loop `break`s at the end of its first iteration,
so only the first tag's word is ever examined; if the phrase scan collected
nothing, fall back to that single word. -/
def compute_replace_nouns (tags : List (List Char × List Char))
    (noun_phrases : List (List Char)) : Except Err (List (List Char)) :=
  match tags with
  | [] => .ok []
  | (word0, _) :: _ =>
    match scan_phrases word0 noun_phrases with
    | .error e => .error e
    | .ok fromPhrases =>
      .ok (if fromPhrases.isEmpty then [word0] else fromPhrases)

/-- `ObjectiveTest.identify_potential_questions` for one sentence.
Parameters supplied by the black-box annotator: `tags` is
`nltk.pos_tag(sentence)`, `numWordTokens` is
`len(nltk.word_tokenize(sentence))`, `noun_phrases` is the surface text of
the CHUNK subtrees of the chunker parse. `tags[0]` on an empty tag list
raises; `.ok none` models the Python `return None` (not applicable). -/
def identify_potential_questions (hi : Hierarchy) (sentence : List Char)
    (tags : List (List Char × List Char)) (numWordTokens : Nat)
    (noun_phrases : List (List Char)) : Except Err (Option QuestionRecord) :=
  match tags with
  | [] => .error .indexError
  | (_, tag0) :: _ =>
    if tag0 = rbTag ∨ numWordTokens < 4 then .ok none
    else
      match compute_replace_nouns tags noun_phrases with
      | .error e => .error e
      | .ok replace_nouns =>
        if replace_nouns.isEmpty then .ok none
        else
          match (match replace_nouns with
                 | [w] => answer_options hi w
                 | _ => .ok []) with
          | .error e => .error e
          | .ok similar =>
            .ok (some ⟨joinSpace replace_nouns,
              replace_nouns.foldl
                (fun v i => if i.length < v then i.length else v) 99,
              similar,
              replaceFirstCI (joinSpace replace_nouns)
                (blanksFor replace_nouns.length) sentence⟩)

/-- A corpus sentence together with the annotator outputs for it. -/
structure AnnotatedSentence where
  sentence : List Char
  tags : List (List Char × List Char)
  numWordTokens : Nat
  noun_phrases : List (List Char)

/-- `ObjectiveTest.get_question_sets`: collect the records of every sentence,
dropping `None` results; exceptions propagate. -/
def get_question_sets (hi : Hierarchy) :
    List AnnotatedSentence → Except Err (List QuestionRecord)
  | [] => .ok []
  | s :: rest =>
    match identify_potential_questions hi s.sentence s.tags s.numWordTokens
        s.noun_phrases with
    | .error e => .error e
    | .ok none => get_question_sets hi rest
    | .ok (some r) =>
      match get_question_sets hi rest with
      | .error e => .error e
      | .ok qs => .ok (r :: qs)

/-- Outcome of the sampling loop of `generate_test`: normal return, a raised
exception, or fuel exhaustion (`diverge`, modelling non-termination). -/
inductive LoopResult where
  | ok (questions answers : List (List Char)) : LoopResult
  | error (e : Err) : LoopResult
  | diverge : LoopResult
deriving DecidableEq

/-- The `while len(questions) < num_questions` loop of
`ObjectiveTest.generate_test`. `draws k % len` models the `k`-th call of
`np.random.randint(0, len(question_answers))`, which raises `ValueError`
when the list is empty. -/
def gen_loop (question_answers : List QuestionRecord) (num_questions : Int)
    (draws : Nat → Nat) :
    Nat → List (List Char) → List (List Char) → Nat → LoopResult
  | 0, questions, answers, _ =>
    if (questions.length : Int) < num_questions then .diverge
    else .ok questions answers
  | fuel + 1, questions, answers, k =>
    if (questions.length : Int) < num_questions then
      if question_answers.length = 0 then .error .valueError
      else
        if (question_answers.getD (draws k % question_answers.length)
            defaultRecord).question ∈ questions then
          gen_loop question_answers num_questions draws fuel questions answers
            (k + 1)
        else
          gen_loop question_answers num_questions draws fuel
            (questions ++
              [(question_answers.getD (draws k % question_answers.length)
                defaultRecord).question])
            (answers ++
              [(question_answers.getD (draws k % question_answers.length)
                defaultRecord).answer]) (k + 1)
    else .ok questions answers

/-- `ObjectiveTest.generate_test` from the collected question sets onward:
filter to records with `Key > 3`, then sample unique questions. -/
def generate_test (question_sets : List QuestionRecord) (num_questions : Int)
    (draws : Nat → Nat) (fuel : Nat) : LoopResult :=
  let question_answers := question_sets.filter fun q => decide (3 < q.key)
  gen_loop question_answers num_questions draws fuel [] [] 0

/-- The filtered candidate list of `generate_test`. -/
def filtered_records (question_sets : List QuestionRecord) :
    List QuestionRecord :=
  question_sets.filter fun q => decide (3 < q.key)

/-- A fixed draw oracle used in concrete evaluations. -/
def zeroDraws : Nat → Nat := fun _ => 0

/-- A hierarchy with no content: every lookup is empty. -/
def emptyHierarchy : Hierarchy := ⟨fun _ => [], fun _ => [], fun _ => [], fun _ => []⟩

/-- Record used for concrete evaluations of the sampling loop. -/
def wrec : QuestionRecord := ⟨lc "dog", 4, [], lc "q1"⟩

/-- Specification-side description of the phrase scan, written after the
amended wording of the blank-selection claim: among the candidate phrases,
the first one that either starts with an apostrophe or contains the first
token's word decides the outcome (apostrophe aborts to the single word;
otherwise the last two words of that phrase are blanked, falling back to the
single word when the phrase splits into no words). -/
def blank_words_of_first_relevant_phrase (word : List Char)
    (phrases : List (List Char)) : List (List Char) :=
  match phrases.find? (fun p => decide (p.head? = some apos) || csOccurs word p) with
  | none => [word]
  | some p =>
    if p.head? = some apos then [word]
    else if (lastTwo (pySplit p)).isEmpty then [word]
    else lastTwo (pySplit p)

/-- Hierarchy stub with one noun sense for every word, whose hypernym's
hyponyms are fox, wolf, dog, coyote. -/
def dogHierarchy : Hierarchy :=
  ⟨fun _ => [0], fun _ => [1], fun _ => [2, 3, 4, 5],
   fun s =>
     if s = 2 then [lc "fox"]
     else if s = 3 then [lc "wolf"]
     else if s = 4 then [lc "dog"]
     else [lc "coyote"]⟩

/-- Hierarchy stub whose only sense has no broader category. -/
def noHypernymHierarchy : Hierarchy :=
  ⟨fun _ => [0], fun _ => [], fun _ => [], fun _ => []⟩

theorem lowerList_append (a b : List Char) :
    lowerList (a ++ b) = lowerList a ++ lowerList b :=
  List.map_append _ a b

theorem lowerList_length (a : List Char) : (lowerList a).length = a.length :=
  List.length_map a _

theorem gen_loop_ok_inv (qa : List QuestionRecord) (nq : Int)
    (draws : Nat → Nat) :
    ∀ fuel qs ans k q a,
      gen_loop qa nq draws fuel qs ans k = .ok q a →
      qs.length = ans.length → qs.Nodup →
      (∀ x ∈ qs, ∃ r ∈ qa, r.question = x) →
      (qs.length : Int) ≤ max nq 0 →
      q.length = a.length ∧ (q.length : Int) = max nq 0 ∧ q.Nodup ∧
        ∀ x ∈ q, ∃ r ∈ qa, r.question = x := by
  intro fuel
  induction fuel with
  | zero =>
    intro qs ans k q a h hlen hnd hmem hle
    unfold gen_loop at h
    split at h
    · exact absurd h (by simp)
    · next hcond =>
      obtain ⟨rfl, rfl⟩ : qs = q ∧ ans = a := by
        simpa using h
      have hq0 : (0 : Int) ≤ (qs.length : Int) := by positivity
      exact ⟨hlen, by omega, hnd, hmem⟩
  | succ fuel ih =>
    intro qs ans k q a h hlen hnd hmem hle
    unfold gen_loop at h
    split at h
    · next hcond =>
      split at h
      · exact absurd h (by simp)
      · next hqa =>
        have hlt : draws k % qa.length < qa.length :=
          Nat.mod_lt _ (Nat.pos_of_ne_zero hqa)
        have hrmem : qa.getD (draws k % qa.length) defaultRecord ∈ qa := by
          rw [List.getD_eq_getElem qa defaultRecord hlt]
          exact List.getElem_mem hlt
        split at h
        · exact ih _ _ _ _ _ h hlen hnd hmem hle
        · next hnotmem =>
          apply ih _ _ _ _ _ h
          · simp [hlen]
          · simp only [List.nodup_append, List.disjoint_singleton]
            exact ⟨hnd, List.nodup_singleton _, hnotmem⟩
          · intro x hx
            rcases List.mem_append.mp hx with hx | hx
            · exact hmem x hx
            · simp only [List.mem_singleton] at hx
              exact ⟨_, hrmem, hx.symm⟩
          · simp only [List.length_append, List.length_singleton]
            push_cast
            omega
    · next hcond =>
      obtain ⟨rfl, rfl⟩ : qs = q ∧ ans = a := by
        simpa using h
      have hq0 : (0 : Int) ≤ (qs.length : Int) := by positivity
      exact ⟨hlen, by omega, hnd, hmem⟩

theorem nodup_length_le_dedup {α : Type} [DecidableEq α] (l l' : List α)
    (hnd : l.Nodup) (hsub : ∀ x ∈ l, x ∈ l') : l.length ≤ l'.dedup.length := by
  have h1 : l.toFinset.card = l.length := List.toFinset_card_of_nodup hnd
  have h3 : l.toFinset ⊆ l'.toFinset := by
    intro x hx
    rw [List.mem_toFinset] at hx ⊢
    exact hsub x hx
  calc l.length = l.toFinset.card := h1.symm
    _ ≤ l'.toFinset.card := Finset.card_le_card h3
    _ = l'.dedup.length := List.card_toFinset l'

theorem gen_loop_diverge_inv (qa : List QuestionRecord) (nq : Int)
    (draws : Nat → Nat) (hne : qa ≠ [])
    (hlt : (((qa.map fun r => r.question).dedup.length : Nat) : Int) < nq) :
    ∀ fuel qs ans k, qs.Nodup →
      (∀ x ∈ qs, x ∈ qa.map fun r => r.question) →
      gen_loop qa nq draws fuel qs ans k = .diverge := by
  intro fuel
  induction fuel with
  | zero =>
    intro qs ans k hnd hsub
    have hcond : (qs.length : Int) < nq := by
      have := nodup_length_le_dedup qs (qa.map fun r => r.question) hnd hsub
      omega
    unfold gen_loop
    rw [if_pos hcond]
  | succ fuel ih =>
    intro qs ans k hnd hsub
    have hcond : (qs.length : Int) < nq := by
      have := nodup_length_le_dedup qs (qa.map fun r => r.question) hnd hsub
      omega
    have hqa : ¬ qa.length = 0 := by
      simpa [List.length_eq_zero] using hne
    have hlt' : draws k % qa.length < qa.length :=
      Nat.mod_lt _ (Nat.pos_of_ne_zero hqa)
    have hrmem : qa.getD (draws k % qa.length) defaultRecord ∈ qa := by
      rw [List.getD_eq_getElem qa defaultRecord hlt']
      exact List.getElem_mem hlt'
    unfold gen_loop
    rw [if_pos hcond, if_neg hqa]
    split
    · exact ih _ _ _ hnd hsub
    · next hnotmem =>
      apply ih _ _ _
      · simp only [List.nodup_append, List.disjoint_singleton]
        exact ⟨hnd, List.nodup_singleton _, hnotmem⟩
      · intro x hx
        rcases List.mem_append.mp hx with hx | hx
        · exact hsub x hx
        · simp only [List.mem_singleton] at hx
          subst hx
          exact List.mem_map_of_mem _ hrmem

theorem count_one_of_nodup_mem {x : List Char} {q : List (List Char)}
    (hnd : q.Nodup) (hx : x ∈ q) : q.count x = 1 := by
  induction q with
  | nil => simp at hx
  | cons a q ih =>
    rw [List.count_cons]
    rcases List.mem_cons.mp hx with rfl | hx'
    · have hnot : x ∉ q := (List.nodup_cons.mp hnd).1
      rw [List.count_eq_zero.mpr hnot]
      simp
    · have hne : x ≠ a := by
        rintro rfl
        exact (List.nodup_cons.mp hnd).1 hx'
      rw [ih (List.nodup_cons.mp hnd).2 hx']
      simp [hne, Ne.symm hne]

/-- C1 (amended): whenever `generate_test` returns normally, the two returned
sequences have equal length `max num_questions 0` (so `num_questions` itself
whenever `num_questions ≥ 0`), and the questions are pairwise distinct. -/
theorem generate_test_shape (question_sets : List QuestionRecord) (nq : Int)
    (draws : Nat → Nat) (fuel : Nat) (q a : List (List Char))
    (h : generate_test question_sets nq draws fuel = .ok q a) :
    q.length = a.length ∧ (q.length : Int) = max nq 0 ∧ q.Nodup := by
  unfold generate_test at h
  have H := gen_loop_ok_inv _ nq draws fuel [] [] 0 q a h (by simp) (by simp)
    (by simp) (by simp)
  exact ⟨H.1, H.2.1, H.2.2.1⟩

/-- C1 counterexample: with `num_questions = -1` the call returns normally,
but the returned sequences have length `0 ≠ -1`. -/
theorem generate_test_shape_cex :
    generate_test [] (-1) zeroDraws 1 = .ok [] [] ∧
    ¬ ((([] : List (List Char)).length : Int) = -1) := by
  exact ⟨rfl, by decide⟩

/-- C1 witness at a concrete input. -/
theorem generate_test_shape_witness :
    generate_test [wrec] 1 zeroDraws 2 = .ok [lc "q1"] [lc "dog"] ∧
    ([lc "q1"].length = [lc "dog"].length ∧
      (([lc "q1"].length : Nat) : Int) = max 1 0 ∧ [lc "q1"].Nodup) := by
  have h : generate_test [wrec] 1 zeroDraws 2 = .ok [lc "q1"] [lc "dog"] := by rfl
  exact ⟨h, generate_test_shape [wrec] 1 zeroDraws 2 _ _ h⟩

/-- C3: when the `Key > 3` filtered set is nonempty but holds fewer distinct
question texts than `num_questions`, the sampling loop never terminates: it
runs out of any amount of fuel, for every draw oracle. -/
theorem generate_test_never_terminates (question_sets : List QuestionRecord)
    (nq : Int) (hne : filtered_records question_sets ≠ [])
    (hlt : ((((filtered_records question_sets).map
      fun r => r.question).dedup.length : Nat) : Int) < nq)
    (fuel : Nat) (draws : Nat → Nat) :
    generate_test question_sets nq draws fuel = .diverge := by
  unfold generate_test
  unfold filtered_records at hne hlt
  exact gen_loop_diverge_inv _ nq draws hne hlt fuel [] [] 0 (by simp) (by simp)

/-- C3 witness at a concrete input. -/
theorem generate_test_never_terminates_witness :
    filtered_records [wrec] ≠ [] ∧
    ((((filtered_records [wrec]).map
      fun r => r.question).dedup.length : Nat) : Int) < 2 ∧
    generate_test [wrec] 2 zeroDraws 5 = .diverge := by
  exact ⟨by decide, by decide,
    generate_test_never_terminates [wrec] 2 (by decide) (by decide) 5 zeroDraws⟩

/-- C4: every question in a returned Test comes from a candidate record with
`key > 3` and occurs exactly once in the Test. -/
theorem generate_test_selected_invariant (question_sets : List QuestionRecord)
    (nq : Int) (draws : Nat → Nat) (fuel : Nat) (q a : List (List Char))
    (h : generate_test question_sets nq draws fuel = .ok q a) :
    (∀ x ∈ q, ∃ r, r ∈ question_sets ∧ 3 < r.key ∧ r.question = x) ∧
    ∀ x ∈ q, q.count x = 1 := by
  unfold generate_test at h
  have H := gen_loop_ok_inv _ nq draws fuel [] [] 0 q a h (by simp) (by simp)
    (by simp) (by simp)
  constructor
  · intro x hx
    obtain ⟨r, hr, hq⟩ := H.2.2.2 x hx
    rw [List.mem_filter] at hr
    exact ⟨r, hr.1, by simpa using hr.2, hq⟩
  · intro x hx
    exact count_one_of_nodup_mem H.2.2.1 hx

/-- C4 witness at a concrete input. -/
theorem generate_test_selected_invariant_witness :
    generate_test [wrec] 1 zeroDraws 3 = .ok [lc "q1"] [lc "dog"] ∧
    ((∀ x ∈ [lc "q1"], ∃ r, r ∈ [wrec] ∧ 3 < r.key ∧ r.question = x) ∧
      ∀ x ∈ [lc "q1"], [lc "q1"].count x = 1) := by
  have h : generate_test [wrec] 1 zeroDraws 3 = .ok [lc "q1"] [lc "dog"] := by rfl
  exact ⟨h, generate_test_selected_invariant [wrec] 1 zeroDraws 3 _ _ h⟩

/-- C10: with `num_questions ≥ 1` and an empty filtered candidate set the
first iteration raises (the random draw over an empty range), for every draw
oracle; with `num_questions ≤ 0` the call returns two empty sequences
whatever the candidate set is. -/
theorem generate_test_edge_cases (question_sets : List QuestionRecord)
    (nq : Int) (draws : Nat → Nat) (fuel : Nat) :
    (1 ≤ nq → filtered_records question_sets = [] →
      generate_test question_sets nq draws (fuel + 1) = .error .valueError) ∧
    (nq ≤ 0 → generate_test question_sets nq draws fuel = .ok [] []) := by
  constructor
  · intro h1 h2
    unfold generate_test
    unfold filtered_records at h2
    rw [h2]
    unfold gen_loop
    rw [if_pos (by simpa using h1)]
    rfl
  · intro h0
    have hnot : ¬ ((([] : List (List Char)).length : Int) < nq) := by
      simp only [List.length_nil, Int.natCast_zero, not_lt]
      exact h0
    unfold generate_test
    cases fuel with
    | zero =>
      unfold gen_loop
      rw [if_neg hnot]
    | succ fuel =>
      unfold gen_loop
      rw [if_neg hnot]

/-- C10 witness at concrete inputs for both branches. -/
theorem generate_test_edge_cases_witness :
    generate_test [] 1 zeroDraws 3 = .error .valueError ∧
    generate_test [wrec] 0 zeroDraws 3 = .ok [] [] := by
  exact ⟨(generate_test_edge_cases [] 1 zeroDraws 2).1 (by decide) (by decide),
    (generate_test_edge_cases [wrec] 0 zeroDraws 3).2 (by decide)⟩



theorem collect_similar_inv (word : List Char) (hi : Hierarchy) :
    ∀ (hys : List Nat) (acc l : List (List Char)),
      acc.length < 8 → word ∉ acc →
      collect_similar word hi hys acc = .ok l →
      l.length ≤ 8 ∧ word ∉ l := by
  intro hys
  induction hys with
  | nil =>
    intro acc l h1 h2 h
    rw [collect_similar] at h
    injection h with h'
    subst h'
    exact ⟨by omega, h2⟩
  | cons hy rest ih =>
    intro acc l h1 h2 h
    rw [collect_similar] at h
    split at h
    · exact absurd h (by simp)
    · next l0 ls hl =>
      simp only at h
      by_cases hsw : (l0.map fun c => if c = underscore then ' ' else c) = word
      · rw [if_pos hsw] at h
        rw [if_neg (by omega)] at h
        exact ih acc l h1 h2 h
      · rw [if_neg hsw] at h
        have hmem2 : word ∉ acc ++ [l0.map fun c => if c = underscore then ' ' else c] := by
          intro hm
          rcases List.mem_append.mp hm with hm | hm
          · exact h2 hm
          · simp only [List.mem_singleton] at hm
            exact hsw hm.symm
        by_cases h8 : (acc ++ [l0.map fun c => if c = underscore then ' ' else c]).length = 8
        · rw [if_pos h8] at h
          injection h with h'
          subst h'
          exact ⟨by omega, hmem2⟩
        · rw [if_neg h8] at h
          apply ih _ l _ hmem2 h
          simp only [List.length_append, List.length_singleton] at h8 ⊢
          omega

/-- C5: whenever the distractor generator returns normally, it returns at
most 8 words, never the input word itself, and the empty list whenever the
word has no noun sense group. -/
theorem answer_options_contract (hi : Hierarchy) (word : List Char)
    (l : List (List Char)) (h : answer_options hi word = .ok l) :
    l.length ≤ 8 ∧ word ∉ l ∧ (hi.synsets word = [] → l = []) := by
  unfold answer_options at h
  split at h
  · next hsyn =>
    injection h with h'
    subst h'
    exact ⟨by simp, by simp, fun _ => rfl⟩
  · next s ss hsyn =>
    split at h
    · exact absurd h (by simp)
    · have H := collect_similar_inv word hi _ [] l (by simp) (by simp) h
      refine ⟨H.1, H.2, fun hc => ?_⟩
      rw [hc] at hsyn
      cases hsyn

/-- C5 witness: spec Scenario B, the word "dog" with sibling terms
fox, wolf, dog, coyote. -/
theorem answer_options_contract_witness :
    answer_options dogHierarchy (lc "dog") =
      .ok [lc "fox", lc "wolf", lc "coyote"] ∧
    ([lc "fox", lc "wolf", lc "coyote"].length ≤ 8 ∧
      lc "dog" ∉ [lc "fox", lc "wolf", lc "coyote"] ∧
      (dogHierarchy.synsets (lc "dog") = [] →
        [lc "fox", lc "wolf", lc "coyote"] = [])) := by
  have h : answer_options dogHierarchy (lc "dog") =
      .ok [lc "fox", lc "wolf", lc "coyote"] := by rfl
  exact ⟨h, answer_options_contract dogHierarchy (lc "dog") _ h⟩

/-- C8: when the first noun sense of the word has no broader category, the
distractor generator raises (the `hypernyms()[0]` lookup) instead of
returning. -/
theorem answer_options_no_hypernym_raises (hi : Hierarchy) (word : List Char)
    (s : Nat) (ss : List Nat) (hsyn : hi.synsets word = s :: ss)
    (hhyp : hi.hypernyms s = []) :
    answer_options hi word = .error .indexError := by
  simp only [answer_options, hsyn, hhyp]

/-- C8 witness at a concrete hierarchy. -/
theorem answer_options_no_hypernym_raises_witness :
    noHypernymHierarchy.synsets (lc "dog") = [0] ∧
    noHypernymHierarchy.hypernyms 0 = [] ∧
    answer_options noHypernymHierarchy (lc "dog") = .error .indexError := by
  exact ⟨rfl, rfl,
    answer_options_no_hypernym_raises noHypernymHierarchy (lc "dog") 0 [] rfl rfl⟩

/-- C7: an eligible-check failure — first token tagged `"RB"` or fewer than
4 word tokens — yields no candidate record (the Python `return None`); the
nonempty tag list reflects that the annotator tags a nonempty sentence. -/
theorem identify_no_record_on_boundary (hi : Hierarchy) (sentence w t : List Char)
    (rest : List (List Char × List Char)) (numWordTokens : Nat)
    (noun_phrases : List (List Char)) (h : t = rbTag ∨ numWordTokens < 4) :
    identify_potential_questions hi sentence ((w, t) :: rest) numWordTokens
      noun_phrases = .ok none := by
  simp only [identify_potential_questions]
  rw [if_pos h]

/-- C7 witness at concrete inputs (adverb-first case and short-sentence case
via the disjunction). -/
theorem identify_no_record_on_boundary_witness :
    identify_potential_questions emptyHierarchy (lc "Quickly it ran away")
      [(lc "Quickly", rbTag)] 4 [] = .ok none ∧
    identify_potential_questions emptyHierarchy (lc "It ran")
      [(lc "It", lc "PRP")] 2 [] = .ok none := by
  exact ⟨identify_no_record_on_boundary emptyHierarchy _ _ _ _ 4 [] (Or.inl rfl),
    identify_no_record_on_boundary emptyHierarchy _ _ _ _ 2 [] (Or.inr (by decide))⟩

theorem scan_phrases_spec (word : List Char) :
    ∀ phrases : List (List Char), (∀ p ∈ phrases, p ≠ []) →
      scan_phrases word phrases = .ok
        (match phrases.find?
            (fun p => decide (p.head? = some apos) || csOccurs word p) with
         | none => []
         | some p => if p.head? = some apos then [] else lastTwo (pySplit p)) := by
  intro phrases
  induction phrases with
  | nil => intro _; rfl
  | cons p ps ih =>
    intro hp
    obtain ⟨c, p', rfl⟩ : ∃ c p', p = c :: p' := by
      cases p with
      | nil => exact absurd rfl (hp [] (List.mem_cons_self _ _))
      | cons c p' => exact ⟨c, p', rfl⟩
    rw [scan_phrases]
    by_cases hc : c = apos
    · subst hc
      rw [if_pos rfl, List.find?_cons]
      simp
    · rw [if_neg hc]
      by_cases hw : csOccurs word (c :: p') = true
      · rw [if_pos hw, List.find?_cons]
        simp [hw, hc]
      · rw [if_neg hw, List.find?_cons]
        have hpred : (decide ((c :: p').head? = some apos)
            || csOccurs word (c :: p')) = false := by
          simp [hc, hw]
        rw [hpred]
        exact ih fun q hq => hp q (List.mem_cons_of_mem _ hq)

/-- C2 (amended): the words-to-blank depend only on the sentence's first
token (later tags never influence the result), and they are decided by the
first candidate phrase that either starts with an apostrophe or contains the
first token's word: an apostrophe-initial phrase aborts the scan and the
single token's word is blanked; otherwise the last two words of that first
containing phrase are blanked (falling back to the single word when that
phrase splits into no words); when no phrase qualifies, the single token's
word is blanked. -/
theorem compute_replace_nouns_single_shot (word t : List Char)
    (rest rest' : List (List Char × List Char)) (phrases : List (List Char))
    (hp : ∀ p ∈ phrases, p ≠ []) :
    compute_replace_nouns ((word, t) :: rest) phrases =
      compute_replace_nouns ((word, t) :: rest') phrases ∧
    compute_replace_nouns ((word, t) :: rest) phrases =
      .ok (blank_words_of_first_relevant_phrase word phrases) := by
  constructor
  · rfl
  · have hs := scan_phrases_spec word phrases hp
    unfold blank_words_of_first_relevant_phrase
    simp only [compute_replace_nouns]
    cases hf : phrases.find?
        (fun p => decide (p.head? = some apos) || csOccurs word p) with
    | none =>
      simp only [hf] at hs
      rw [hs]
      simp
    | some p =>
      simp only [hf] at hs
      by_cases ha : p.head? = some apos
      · rw [if_pos ha] at hs
        rw [hs]
        simp [ha]
      · rw [if_neg ha] at hs
        rw [hs]
        by_cases he : (lastTwo (pySplit p)).isEmpty
        · simp [ha, he]
        · simp [ha, he]

/-- C2 counterexample: the first token's word "word" is contained in the
candidate phrase "word thing" (and in no other phrase), so the claim
predicts that phrase's last two words as the words-to-blank; but an earlier
apostrophe-initial phrase aborts the scan and the code blanks the single
word "word" instead. -/
theorem compute_replace_nouns_single_shot_cex :
    identify_potential_questions emptyHierarchy (lc "a word thing b")
        [(lc "word", lc "NN")] 4 [apos :: lc "s thing", lc "word thing"]
      = .ok (some ⟨lc "word", 4, [], lc "a __________ thing b"⟩) ∧
    csOccurs (lc "word") (lc "word thing") = true ∧
    csOccurs (lc "word") (apos :: lc "s thing") = false ∧
    lastTwo (pySplit (lc "word thing")) = [lc "word", lc "thing"] ∧
    lc "word" ≠ joinSpace [lc "word", lc "thing"] := by
  exact ⟨rfl, rfl, rfl, rfl, by decide⟩

/-- C2 witness at a concrete input. -/
theorem compute_replace_nouns_single_shot_witness :
    (∀ p ∈ [lc "big cat"], p ≠ []) ∧
    (compute_replace_nouns [(lc "cat", lc "NN"), (lc "dog", lc "NN")]
        [lc "big cat"] =
      compute_replace_nouns [(lc "cat", lc "NN"), (lc "mat", lc "DT")]
        [lc "big cat"] ∧
    compute_replace_nouns [(lc "cat", lc "NN"), (lc "dog", lc "NN")]
        [lc "big cat"] =
      .ok (blank_words_of_first_relevant_phrase (lc "cat") [lc "big cat"])) := by
  refine ⟨by decide, ?_⟩
  exact compute_replace_nouns_single_shot (lc "cat") (lc "NN")
    [(lc "dog", lc "NN")] [(lc "mat", lc "DT")] [lc "big cat"] (by decide)

theorem identify_some_spec (hi : Hierarchy) (sentence : List Char)
    (tags : List (List Char × List Char)) (numWordTokens : Nat)
    (noun_phrases : List (List Char)) (r : QuestionRecord)
    (rn : List (List Char))
    (h : identify_potential_questions hi sentence tags numWordTokens
      noun_phrases = .ok (some r))
    (hrn : compute_replace_nouns tags noun_phrases = .ok rn) :
    rn ≠ [] ∧ r.answer = joinSpace rn ∧
    r.key = rn.foldl (fun v i => if i.length < v then i.length else v) 99 ∧
    r.question = replaceFirstCI (joinSpace rn) (blanksFor rn.length) sentence := by
  unfold identify_potential_questions at h
  split at h
  · exact absurd h (by simp)
  · split at h
    · exact absurd h (by simp)
    · split at h
      · next e heq =>
        rw [hrn] at heq
        exact absurd heq (by simp)
      · next replace_nouns heq =>
        rw [hrn] at heq
        injection heq with heq'
        subst heq'
        split at h
        · exact absurd h (by simp)
        · next hne =>
          split at h
          · exact absurd h (by simp)
          · next similar heq2 =>
            injection h with h1
            injection h1 with h2
            subst h2
            refine ⟨?_, rfl, rfl, rfl⟩
            intro hnil
            rw [hnil] at hne
            exact hne rfl

/-- C9 (amended): for every record produced, `key` equals the fold of the
words-to-blank lengths through `min` starting from 99, i.e. the minimum of
99 and the minimum character length among the words-to-blank (the loop's
initial accumulator 99 caps the value). -/
theorem identify_key_is_capped_min (hi : Hierarchy) (sentence : List Char)
    (tags : List (List Char × List Char)) (numWordTokens : Nat)
    (noun_phrases : List (List Char)) (r : QuestionRecord)
    (rn : List (List Char))
    (h : identify_potential_questions hi sentence tags numWordTokens
      noun_phrases = .ok (some r))
    (hrn : compute_replace_nouns tags noun_phrases = .ok rn) :
    r.key = (rn.map List.length).foldl min 99 := by
  obtain ⟨-, -, hkey, -⟩ := identify_some_spec hi sentence tags numWordTokens
    noun_phrases r rn h hrn
  rw [hkey, List.foldl_map]
  have hfun : (fun (v : Nat) (i : List Char) =>
      if i.length < v then i.length else v) =
      fun (v : Nat) (i : List Char) => min v i.length := by
    funext v i
    rcases Nat.lt_or_ge i.length v with hvi | hvi
    · rw [if_pos hvi, Nat.min_def, if_neg (by omega)]
    · rw [if_neg (by omega), Nat.min_def, if_pos (by omega)]
  rw [hfun]

/-- C9 counterexample: a single 100-character word is blanked, its minimum
word length is 100, but the record's `key` is 99 (the loop accumulator's
initial value caps it). -/
theorem identify_key_is_capped_min_cex :
    identify_potential_questions emptyHierarchy (lc "s")
        [(List.replicate 100 'a', lc "NN")] 4 []
      = .ok (some ⟨List.replicate 100 'a', 99, [], lc "s"⟩) ∧
    (List.replicate 100 'a').length = 100 ∧ (99 : Nat) ≠ 100 := by
  exact ⟨rfl, by decide, by decide⟩

/-- C9 witness at a concrete input. -/
theorem identify_key_is_capped_min_witness :
    identify_potential_questions emptyHierarchy (lc "The cat ran far")
        [(lc "cat", lc "NN")] 4 []
      = .ok (some ⟨lc "cat", 3, [], lc "The __________ ran far"⟩) ∧
    compute_replace_nouns [(lc "cat", lc "NN")] [] = .ok [lc "cat"] ∧
    (⟨lc "cat", 3, [], lc "The __________ ran far"⟩ : QuestionRecord).key =
      ([lc "cat"].map List.length).foldl min 99 := by
  have h : identify_potential_questions emptyHierarchy (lc "The cat ran far")
      [(lc "cat", lc "NN")] 4 []
      = .ok (some ⟨lc "cat", 3, [], lc "The __________ ran far"⟩) := by rfl
  have hrn : compute_replace_nouns [(lc "cat", lc "NN")] [] = .ok [lc "cat"] := by rfl
  exact ⟨h, hrn, identify_key_is_capped_min emptyHierarchy _ _ 4 [] _ _ h hrn⟩

theorem flatten_replicate_tenBlanks (n : Nat) :
    List.flatten (List.replicate n tenBlanks) =
      List.replicate (10 * n) underscore := by
  induction n with
  | zero => simp
  | succ n ih =>
    rw [List.replicate_succ, List.flatten_cons, ih, tenBlanks,
      show 10 * (n + 1) = 10 + 10 * n from by ring, List.replicate_add]

theorem pyStrip_underscores (m : Nat) :
    pyStrip (List.replicate m underscore) = List.replicate m underscore := by
  have hu : pyIsSpace underscore = false := by decide
  have h2 : ∀ k : Nat, (List.replicate k underscore).dropWhile pyIsSpace =
      List.replicate k underscore := by
    intro k
    cases k with
    | zero => rfl
    | succ k =>
      rw [List.replicate_succ, List.dropWhile_cons]
      simp [hu, List.replicate_succ]
  unfold pyStrip
  rw [h2, List.reverse_replicate, h2, List.reverse_replicate]

theorem blanksFor_eq (n : Nat) :
    blanksFor n = List.replicate (10 * n) underscore := by
  rw [blanksFor, flatten_replicate_tenBlanks, pyStrip_underscores]

theorem ciPrefix_take {pat s : List Char} (h : isCIPrefixOf pat s = true) :
    lowerList (s.take pat.length) = lowerList pat := by
  rw [isCIPrefixOf, List.isPrefixOf_iff_prefix] at h
  obtain ⟨t, ht⟩ := h
  calc lowerList (s.take pat.length)
      = (lowerList s).take pat.length := by
        simp only [lowerList]
        rw [List.map_take]
    _ = (lowerList pat ++ t).take pat.length := by rw [ht]
    _ = (lowerList pat ++ t).take (lowerList pat).length := by
        rw [lowerList_length]
    _ = lowerList pat := List.take_left _ _

theorem replaceFirstCI_no_occ (pat repl : List Char) :
    ∀ s, ciOccurs pat s = false → replaceFirstCI pat repl s = s := by
  intro s
  induction s with
  | nil =>
    intro h
    rw [ciOccurs] at h
    rw [replaceFirstCI, if_neg (by simp [h])]
  | cons c rest ih =>
    intro h
    rw [ciOccurs, Bool.or_eq_false_iff] at h
    rw [replaceFirstCI, if_neg (by simp [h.1]), ih h.2]

theorem replaceFirstCI_decomp (pat repl : List Char) :
    ∀ s : List Char, ciOccurs pat s = true →
      ∃ pre mid suf, s = pre ++ (mid ++ suf) ∧
        lowerList mid = lowerList pat ∧
        replaceFirstCI pat repl s = pre ++ (repl ++ suf) := by
  intro s
  induction s with
  | nil =>
    intro h
    rw [ciOccurs] at h
    refine ⟨[], [], [], by simp, ?_, ?_⟩
    · have h1 : lowerList pat = [] := by
        rw [isCIPrefixOf, List.isPrefixOf_iff_prefix] at h
        exact List.prefix_nil.mp h
      have hpat : pat = [] := List.map_eq_nil_iff.mp h1
      rw [hpat]
    · rw [replaceFirstCI, if_pos h]
      simp
  | cons c rest ih =>
    intro h
    by_cases hp : isCIPrefixOf pat (c :: rest) = true
    · refine ⟨[], (c :: rest).take pat.length, (c :: rest).drop pat.length,
        by simp [List.take_append_drop], ciPrefix_take hp, ?_⟩
      rw [replaceFirstCI, if_pos hp]
      simp
    · have h' : ciOccurs pat rest = true := by
        rw [ciOccurs, Bool.or_eq_true] at h
        rcases h with h | h
        · exact absurd h hp
        · exact h
      obtain ⟨pre, mid, suf, h1, h2, h3⟩ := ih h'
      refine ⟨c :: pre, mid, suf, by simp [h1], h2, ?_⟩
      rw [replaceFirstCI, if_neg hp, h3]
      simp

theorem replaceFirst_at_head (pat repl suf : List Char) :
    replaceFirst pat repl (pat ++ suf) = repl ++ suf := by
  have hpref : pat.isPrefixOf (pat ++ suf) = true :=
    List.isPrefixOf_iff_prefix.mpr (List.prefix_append _ _)
  cases hps : pat ++ suf with
  | nil =>
    obtain ⟨rfl, rfl⟩ := List.append_eq_nil.mp hps
    simp [replaceFirst]
  | cons c rest =>
    rw [hps] at hpref
    rw [replaceFirst, if_pos hpref, ← hps, List.drop_left]

theorem replaceFirst_no_occ (pat repl : List Char) :
    ∀ s, csOccurs pat s = false → replaceFirst pat repl s = s := by
  intro s
  induction s with
  | nil =>
    intro h
    rw [csOccurs] at h
    rw [replaceFirst, if_neg (by simp [h])]
  | cons c rest ih =>
    intro h
    rw [csOccurs, Bool.or_eq_false_iff] at h
    rw [replaceFirst, if_neg (by simp [h.1]), ih h.2]

theorem csOccurs_head_mem {c : Char} {pat' : List Char} :
    ∀ {s : List Char}, csOccurs (c :: pat') s = true → c ∈ s := by
  intro s
  induction s with
  | nil =>
    intro h
    rw [csOccurs] at h
    simp [List.isPrefixOf] at h
  | cons d rest ih =>
    intro h
    rw [csOccurs, Bool.or_eq_true] at h
    rcases h with h | h
    · simp only [List.isPrefixOf, Bool.and_eq_true, beq_iff_eq] at h
      exact h.1 ▸ List.mem_cons_self _ _
    · exact List.mem_cons_of_mem _ (ih h)

theorem replaceFirst_clean (repl suf : List Char) (m : Nat) (hm : m ≠ 0) :
    ∀ pre : List Char, (∀ x ∈ pre, x ≠ underscore) →
      replaceFirst (List.replicate m underscore) repl
        (pre ++ (List.replicate m underscore ++ suf)) = pre ++ (repl ++ suf) := by
  intro pre
  induction pre with
  | nil =>
    intro _
    simp only [List.nil_append]
    exact replaceFirst_at_head _ _ _
  | cons x pre' ih =>
    intro hx
    have hxu : x ≠ underscore := hx x (List.mem_cons_self _ _)
    obtain ⟨m', rfl⟩ : ∃ m', m = m' + 1 := ⟨m - 1, by omega⟩
    simp only [List.cons_append]
    rw [replaceFirst, if_neg ?hneg]
    case hneg =>
      rw [List.replicate_succ]
      simp [List.isPrefixOf, Ne.symm hxu]
    rw [ih fun y hy => hx y (List.mem_cons_of_mem _ hy)]

/-- C6 (amended): every produced record's `question` equals the sentence
with the first case-insensitive occurrence of the space-joined words-to-blank
replaced by one ten-underscore run per blanked word with no separators;
provided the sentence itself contains no underscore character, substituting
the answer phrase back for the blank-marker run reproduces the source
sentence up to case of the replaced span. -/
theorem identify_question_blanking (hi : Hierarchy) (sentence : List Char)
    (tags : List (List Char × List Char)) (numWordTokens : Nat)
    (noun_phrases : List (List Char)) (r : QuestionRecord)
    (rn : List (List Char))
    (h : identify_potential_questions hi sentence tags numWordTokens
      noun_phrases = .ok (some r))
    (hrn : compute_replace_nouns tags noun_phrases = .ok rn)
    (hu : underscore ∉ sentence) :
    r.answer = joinSpace rn ∧
    r.question = replaceFirstCI (joinSpace rn) (blanksFor rn.length) sentence ∧
    lowerList (replaceFirst (blanksFor rn.length) r.answer r.question) =
      lowerList sentence := by
  obtain ⟨hne, hans, -, hq⟩ := identify_some_spec hi sentence tags numWordTokens
    noun_phrases r rn h hrn
  refine ⟨hans, hq, ?_⟩
  rw [hans, hq, blanksFor_eq]
  have hm : 10 * rn.length ≠ 0 := by
    have : rn.length ≠ 0 := fun hz => hne (List.length_eq_zero.mp hz)
    omega
  by_cases hocc : ciOccurs (joinSpace rn) sentence = true
  · obtain ⟨pre, mid, suf, hs, hlow, hrep⟩ :=
      replaceFirstCI_decomp (joinSpace rn)
        (List.replicate (10 * rn.length) underscore) sentence hocc
    rw [hrep]
    have hpre : ∀ x ∈ pre, x ≠ underscore := by
      intro x hxp hxe
      subst hxe
      exact hu (hs ▸ List.mem_append.mpr (Or.inl hxp))
    rw [replaceFirst_clean _ _ _ hm pre hpre, hs]
    simp only [lowerList_append]
    rw [hlow]
  · have hocc' : ciOccurs (joinSpace rn) sentence = false := by
      cases hb : ciOccurs (joinSpace rn) sentence
      · rfl
      · exact absurd hb hocc
    rw [replaceFirstCI_no_occ _ _ _ hocc']
    have hcs : csOccurs (List.replicate (10 * rn.length) underscore) sentence
        = false := by
      obtain ⟨m', hm'⟩ : ∃ m', 10 * rn.length = m' + 1 :=
        ⟨10 * rn.length - 1, by omega⟩
      rw [hm', List.replicate_succ]
      cases hb : csOccurs (underscore :: List.replicate m' underscore) sentence
      · rfl
      · exact absurd (csOccurs_head_mem hb) hu
    rw [replaceFirst_no_occ _ _ _ hcs]

/-- C6 counterexample: a sentence that already contains a blank-marker run
before the blanked word; the produced record satisfies the replacement
description, but substituting the answer back for the (first) blank-marker
run does not reproduce the source sentence even up to case. -/
theorem identify_question_blanking_cex :
    identify_potential_questions emptyHierarchy (lc "__________ x gamma")
        [(lc "gamma", lc "NN")] 4 []
      = .ok (some ⟨lc "gamma", 5, [], lc "__________ x __________"⟩) ∧
    lowerList (replaceFirst (blanksFor 1) (lc "gamma")
        (lc "__________ x __________"))
      ≠ lowerList (lc "__________ x gamma") := by
  exact ⟨rfl, by decide⟩

/-- C6 witness at a concrete input. -/
theorem identify_question_blanking_witness :
    identify_potential_questions emptyHierarchy (lc "The cat ran far")
        [(lc "cat", lc "NN")] 4 []
      = .ok (some ⟨lc "cat", 3, [], lc "The __________ ran far"⟩) ∧
    compute_replace_nouns [(lc "cat", lc "NN")] [] = .ok [lc "cat"] ∧
    underscore ∉ lc "The cat ran far" ∧
    (lc "cat" = joinSpace [lc "cat"] ∧
     lc "The __________ ran far" =
       replaceFirstCI (joinSpace [lc "cat"]) (blanksFor 1) (lc "The cat ran far") ∧
     lowerList (replaceFirst (blanksFor 1) (lc "cat")
       (lc "The __________ ran far")) = lowerList (lc "The cat ran far")) := by
  have h : identify_potential_questions emptyHierarchy (lc "The cat ran far")
      [(lc "cat", lc "NN")] 4 []
      = .ok (some ⟨lc "cat", 3, [], lc "The __________ ran far"⟩) := by rfl
  have hrn : compute_replace_nouns [(lc "cat", lc "NN")] [] = .ok [lc "cat"] := by
    rfl
  have hu : underscore ∉ lc "The cat ran far" := by decide
  exact ⟨h, hrn, hu,
    identify_question_blanking emptyHierarchy _ _ 4 [] _ _ h hrn hu⟩
